import Mathlib

set_option maxRecDepth 8000

/-!
Shallow embedding of the diff-computation core of the elm-doc-preview
repository: the API-diff parser (lib/elm-doc-server.ts and its verbatim copy
in docs-server/api/preview.ts), the line-diff utility and the content-diff
engine.  Text is modelled as `List Char`; JavaScript string operations
(`split`, `trim`, the inline regular expressions) are translated into
executable char-list functions.
-/

/-- Characters matched by the JavaScript regex class `\s` (ASCII part; the
rare exotic Unicode space characters are not used by any input of interest
and are omitted). -/
def isJsSpace (c : Char) : Bool :=
  c = ' ' || c = '\t' || c = '\n' || c = '\r' || c = '\x0b' || c = '\x0c'

/-- JavaScript `s.split("\n")`: splitting the empty string yields `[""]`,
never the empty array. -/
def splitOnNl : List Char → List (List Char)
  | [] => [[]]
  | c :: cs =>
    if c = '\n' then [] :: splitOnNl cs
    else
      match splitOnNl cs with
      | [] => [[c]]
      | l :: ls => (c :: l) :: ls

/-- JavaScript `s.trim()`. -/
def jsTrim (cs : List Char) : List Char :=
  ((cs.dropWhile isJsSpace).reverse.dropWhile isJsSpace).reverse

/-- Predicate: `pat` occurs contiguously somewhere inside `cs` (what an unanchored
JavaScript regex match of a literal pattern tests). -/
def OccursIn (pat cs : List Char) : Prop :=
  ∃ pre suf, cs = pre ++ pat ++ suf

/-- Interface `ApiModuleChanges` (declared identically in
lib/elm-doc-server.ts and docs-server/api/preview.ts). -/
structure ApiModuleChanges where
  name : List Char
  added : List (List Char)
  changed : List (List Char)
  removed : List (List Char)
deriving DecidableEq

/-- Interface `ApiDiff` (declared identically in both files). -/
structure ApiDiff where
  magnitude : List Char
  addedModules : List (List Char)
  removedModules : List (List Char)
  changedModules : List ApiModuleChanges
deriving DecidableEq

/-- The three parser subsection states inside a per-module body. -/
inductive SubSect
  | added
  | changed
  | removed
deriving DecidableEq

/-! ## The API-diff parser of lib/elm-doc-server.ts (`parseDiffOutput`) -/

namespace EDS

def magWords : List (List Char) :=
  ["MAJOR".toList, "MINOR".toList, "PATCH".toList]

/-- The literal text the regex `/This is a (MAJOR|MINOR|PATCH) change/`
matches when the captured group is `w`. -/
def magPattern (w : List Char) : List Char :=
  "This is a ".toList ++ w ++ " change".toList

/-- Try the magnitude regex at the current position (alternation tried in
source order MAJOR, MINOR, PATCH). -/
def magAt (cs : List Char) : Option (List Char) :=
  if (magPattern "MAJOR".toList).isPrefixOf cs then some "MAJOR".toList
  else if (magPattern "MINOR".toList).isPrefixOf cs then some "MINOR".toList
  else if (magPattern "PATCH".toList).isPrefixOf cs then some "PATCH".toList
  else none

/-- Unanchored search of `/This is a (MAJOR|MINOR|PATCH) change/`,
returning the captured word of the leftmost match. -/
def findMag : List Char → Option (List Char)
  | [] => none
  | c :: cs =>
    match magAt (c :: cs) with
    | some w => some w
    | none => findMag cs

/-- Length of the run of dashes a leading `-+`/`-{4,}` consumes. -/
def leadDashes (cs : List Char) : Nat :=
  (cs.takeWhile (· = '-')).length

/-- Regex `/^-+ ADDED MODULES/`. -/
def isAddedBanner (cs : List Char) : Bool :=
  decide (1 ≤ leadDashes cs) &&
    " ADDED MODULES".toList.isPrefixOf (cs.drop (leadDashes cs))

/-- Regex `/^-+ REMOVED MODULES/`. -/
def isRemovedBanner (cs : List Char) : Bool :=
  decide (1 ≤ leadDashes cs) &&
    " REMOVED MODULES".toList.isPrefixOf (cs.drop (leadDashes cs))

/-- Regex `/^-{4,}/`. -/
def isBanner4 (cs : List Char) : Bool :=
  decide (4 ≤ leadDashes cs)

/-- Regex `/^\s+\S/`: at least one leading whitespace character followed (after
the whitespace run) by a non-whitespace character. -/
def matchIndented (cs : List Char) : Bool :=
  match cs with
  | [] => false
  | c :: _ => isJsSpace c && decide (cs.dropWhile isJsSpace ≠ [])

/-- JavaScript `sectionLine.replace(/^[+-]\s*/, "")`: strip one optional leading `+`
or `-` marker together with the whitespace that follows it. -/
def stripMarker : List Char → List Char
  | [] => []
  | c :: cs => if c = '+' || c = '-' then cs.dropWhile isJsSpace else c :: cs

def isIdentStart (c : Char) : Bool :=
  ('a' ≤ c && c ≤ 'z') || ('A' ≤ c && c ≤ 'Z')

def isIdentChar (c : Char) : Bool :=
  isIdentStart c || ('0' ≤ c && c ≤ '9') || c = '_'

/-- Regex `/^([a-zA-Z][a-zA-Z0-9_]*)\s+:/`: capture the leading identifier when
it is followed by at least one whitespace character and then a colon. -/
def itemName (cs : List Char) : Option (List Char) :=
  match cs with
  | [] => none
  | c :: rest =>
    if isIdentStart c then
      let after := rest.dropWhile isIdentChar
      let spaces := after.takeWhile isJsSpace
      if spaces ≠ [] && (after.dropWhile isJsSpace).head? = some ':' then
        some (c :: rest.takeWhile isIdentChar)
      else none
    else none

/-- Drop `pat` from the front of `cs`, if it is a prefix. -/
def stripPre : List Char → List Char → Option (List Char)
  | [], cs => some cs
  | _ :: _, [] => none
  | p :: ps, c :: cs => if p = c then stripPre ps cs else none

/-- The tail a module banner must end with after the captured module name:
`" - " (MAJOR|MINOR|PATCH) " "` followed by four or more dashes up to the
end of the line. -/
def suffixShape (cs : List Char) : Bool :=
  magWords.any fun w =>
    match stripPre (" - ".toList ++ w ++ [' ']) cs with
    | some r => decide (4 ≤ r.length) && r.all (· = '-')
    | none => false

/-- Characters the JavaScript `.` (without the `s` flag) matches. -/
def isDotChar (c : Char) : Bool :=
  !(c = '\n' || c = '\r' || c = '\u2028' || c = '\u2029')

/-- The lazy group `(.+?)` of the module-banner regex: the shortest
non-empty run of `.`-matchable characters after which the rest of the line
has the `suffixShape`. -/
def captureScan (acc : List Char) : List Char → Option (List Char)
  | [] => none
  | c :: rest =>
    if isDotChar c then
      if suffixShape rest then some ((c :: acc).reverse)
      else captureScan (c :: acc) rest
    else none

/-- Regex `/^-{4,} (.+?) - (?:MAJOR|MINOR|PATCH) -{4,}$/`: returns the captured
module name.  The source first tests the line with the greedy variant
`/^-{4,} .+ - (MAJOR|MINOR|PATCH) -{4,}$/` and then recaptures with the
lazy one; the two regexes accept exactly the same lines, so the capture is
`some` precisely when the test succeeds and the source's impossible
"test matched but capture failed" branch is dead. -/
def captureModule (cs : List Char) : Option (List Char) :=
  if 4 ≤ leadDashes cs then
    match cs.drop (leadDashes cs) with
    | c :: rest => if c = ' ' then captureScan [] rest else none
    | [] => none
  else none

/-- One line of a module body: updates the active subsection and possibly
captures an identifier for it (the `Added:`/`Changed:`/`Removed:` switch
and the item-line regex of the inner while loop). -/
def lineEvent (sect : Option SubSect) (l : List Char) :
    Option SubSect × Option (SubSect × List Char) :=
  let t := jsTrim l
  if t = "Added:".toList then (some SubSect.added, none)
  else if t = "Changed:".toList then (some SubSect.changed, none)
  else if t = "Removed:".toList then (some SubSect.removed, none)
  else
    match sect with
    | some s =>
      if t ≠ [] then
        match itemName (stripMarker t) with
        | some n => (sect, some (s, n))
        | none => (sect, none)
      else (sect, none)
    | none => (sect, none)

/-- The subsection collection of an `ApiModuleChanges`. -/
def getColl : SubSect → ApiModuleChanges → List (List Char)
  | SubSect.added, mc => mc.added
  | SubSect.changed, mc => mc.changed
  | SubSect.removed, mc => mc.removed

/-- Guarded push `if (!mc[section].includes(itemName)) mc[section].push(itemName)`. -/
def pushIfAbsent (mc : ApiModuleChanges) : SubSect → List Char → ApiModuleChanges
  | SubSect.added, n =>
    if n ∈ mc.added then mc else { mc with added := mc.added ++ [n] }
  | SubSect.changed, n =>
    if n ∈ mc.changed then mc else { mc with changed := mc.changed ++ [n] }
  | SubSect.removed, n =>
    if n ∈ mc.removed then mc else { mc with removed := mc.removed ++ [n] }

/-- The inner while loop of the module-banner branch: consume body lines
until the next 4+-dash banner line (or end of input), returning the
completed record and the unconsumed lines. -/
def collectModuleBody (mc : ApiModuleChanges) (sect : Option SubSect) :
    List (List Char) → ApiModuleChanges × List (List Char)
  | [] => (mc, [])
  | l :: ls =>
    if isBanner4 l then (mc, l :: ls)
    else
      match lineEvent sect l with
      | (sect', some (s, n)) => collectModuleBody (pushIfAbsent mc s n) sect' ls
      | (sect', none) => collectModuleBody mc sect' ls

/-- The inner while loop of the ADDED/REMOVED MODULES branches as shipped:
`while (i < lines.length && lines[i].match(/^\s+\S/))` — collection stops
at the first line that is not indented-non-blank (in particular at a blank
line). -/
def collectIndentedBuggy : List (List Char) → List (List Char) × List (List Char)
  | [] => ([], [])
  | l :: ls =>
    if matchIndented l then
      let p := collectIndentedBuggy ls
      (jsTrim l :: p.1, p.2)
    else ([], l :: ls)

/-- The outer `while (i < lines.length)` scan.  Every iteration of the
source loop (outer or inner) advances `i` by exactly one, so a fuel of the
number of remaining lines is always sufficient; the fuel only makes the
recursion structural. -/
def parseLinesFuel : Nat → ApiDiff → List (List Char) → ApiDiff
  | 0, d, _ => d
  | _ + 1, d, [] => d
  | fuel + 1, d, l :: ls =>
    if isAddedBanner l then
      let p := collectIndentedBuggy ls
      parseLinesFuel fuel { d with addedModules := d.addedModules ++ p.1 } p.2
    else if isRemovedBanner l then
      let p := collectIndentedBuggy ls
      parseLinesFuel fuel { d with removedModules := d.removedModules ++ p.1 } p.2
    else
      match captureModule l with
      | some nm =>
        let p := collectModuleBody ⟨nm, [], [], []⟩ none ls
        parseLinesFuel fuel { d with changedModules := d.changedModules ++ [p.1] } p.2
      | none => parseLinesFuel fuel d ls

/-- Function `parseDiffOutput` of lib/elm-doc-server.ts on the char-list level. -/
def parseDiffCore (cs : List Char) : Option ApiDiff :=
  match splitOnNl cs with
  | [] => none
  | l0 :: rest =>
    match findMag l0 with
    | none => none
    | some w => some (parseLinesFuel rest.length ⟨w, [], [], []⟩ rest)

/-- Function `parseDiffOutput` of lib/elm-doc-server.ts. -/
def parseDiffOutput (s : String) : Option ApiDiff :=
  parseDiffCore s.toList

/-- The raw sequence of identifiers captured for subsection `s` while
scanning a module body (duplicates included): the captures of the inner
while loop before the `includes` dedup is applied. -/
def capturedIn (s : SubSect) (sect : Option SubSect) :
    List (List Char) → List (List Char)
  | [] => []
  | l :: ls =>
    if isBanner4 l then []
    else
      match lineEvent sect l with
      | (sect', some (s', n)) =>
        (if s' = s then [n] else []) ++ capturedIn s sect' ls
      | (sect', none) => capturedIn s sect' ls

/-- Append `n` unless already present (one `includes`-guarded push). -/
def dedupStep (acc : List (List Char)) (n : List Char) : List (List Char) :=
  if n ∈ acc then acc else acc ++ [n]

/-- First-seen-order deduplication starting from `acc`. -/
def dedupFrom (acc : List (List Char)) (ns : List (List Char)) : List (List Char) :=
  ns.foldl dedupStep acc

/-- First-seen-order deduplication of a list of names. -/
def dedupFirst (ns : List (List Char)) : List (List Char) :=
  dedupFrom [] ns

end EDS

/-! ## The fixed parser of the repository's regression-test file
(the "NEW fixed version" of `parseDiffOutput` in the test suite, which the
tests run against the real blank-line-padded output of the external diff
tool).  It differs from the shipped parser only in the ADDED/REMOVED
MODULES collection loop: that loop runs until the next 4+-dash banner and
merely skips lines that are not indented-non-blank, instead of stopping at
them.  All other helpers are verbatim copies of the shipped ones. -/

namespace TestFixed

/-- The fixed loop `while (i < lines.length && !lines[i].match(/^-{4,}/)) { if
(lines[i].match(/^\s+\S/)) push; i++ }` — the fixed collection loop. -/
def collectIndentedFixed : List (List Char) → List (List Char) × List (List Char)
  | [] => ([], [])
  | l :: ls =>
    if EDS.isBanner4 l then ([], l :: ls)
    else
      let p := collectIndentedFixed ls
      (if EDS.matchIndented l then jsTrim l :: p.1 else p.1, p.2)

/-- Outer scan of the fixed parser (identical to the shipped one except
for the ADDED/REMOVED MODULES loops). -/
def parseLinesFuel : Nat → ApiDiff → List (List Char) → ApiDiff
  | 0, d, _ => d
  | _ + 1, d, [] => d
  | fuel + 1, d, l :: ls =>
    if EDS.isAddedBanner l then
      let p := collectIndentedFixed ls
      parseLinesFuel fuel { d with addedModules := d.addedModules ++ p.1 } p.2
    else if EDS.isRemovedBanner l then
      let p := collectIndentedFixed ls
      parseLinesFuel fuel { d with removedModules := d.removedModules ++ p.1 } p.2
    else
      match EDS.captureModule l with
      | some nm =>
        let p := EDS.collectModuleBody ⟨nm, [], [], []⟩ none ls
        parseLinesFuel fuel { d with changedModules := d.changedModules ++ [p.1] } p.2
      | none => parseLinesFuel fuel d ls

/-- The fixed `parseDiffOutput` of the regression-test file. -/
def parseDiffOutput (s : String) : Option ApiDiff :=
  match splitOnNl s.toList with
  | [] => none
  | l0 :: rest =>
    match EDS.findMag l0 with
    | none => none
    | some w => some (parseLinesFuel rest.length ⟨w, [], [], []⟩ rest)

end TestFixed

/-! ## Line-diff utility (`computeLineDiff`) -/

/-- A change block as produced by the external line-diff library: a text
chunk tagged added, removed, or (neither) unchanged. -/
structure Change where
  added : Bool
  removed : Bool
  value : List Char
deriving DecidableEq

/-- A DiffLine `[status, text]`: status 1 added, -1 removed, 0 context. -/
abbrev DiffLine := Int × List Char

/-- JavaScript `change.added ? 1 : change.removed ? -1 : 0`. -/
def changeStatus (c : Change) : Int :=
  if c.added then 1 else if c.removed then -1 else 0

/-- JavaScript `change.value.replace(/\n$/, "")`. -/
def stripFinalNl (cs : List Char) : List Char :=
  if cs.getLast? = some '\n' then cs.dropLast else cs

/-- The body of `computeLineDiff` after the external `diffLines` call:
return null when no block is added or removed, otherwise expand every
block into one DiffLine per line of its (final-newline-stripped) text. -/
def computeLineDiffChanges (changes : List Change) : Option (List DiffLine) :=
  if changes.all (fun c => !c.added && !c.removed) then none
  else
    some (changes.flatMap fun c =>
      (splitOnNl (stripFinalNl c.value)).map fun l => (changeStatus c, l))

/-- Modelled from the spec: the line tokenization of the external
line-diff algorithm (the jsdiff `diffLines` dependency, which is not part
of this repository) — both texts are split into lines, each line keeping
its trailing newline. -/
def splitKeepNl : List Char → List (List Char)
  | [] => []
  | c :: cs =>
    if c = '\n' then ['\n'] :: splitKeepNl cs
    else
      match splitKeepNl cs with
      | [] => [[c]]
      | l :: ls => (c :: l) :: ls

/-- Modelled from the spec: the run of identical lines two line sequences
share at the front, together with the two remainders. -/
def commonPre : List (List Char) → List (List Char) →
    List (List Char) × (List (List Char) × List (List Char))
  | x :: xs, y :: ys =>
    if x = y then
      let p := commonPre xs ys
      (x :: p.1, p.2)
    else ([], (x :: xs, y :: ys))
  | xs, ys => ([], (xs, ys))

/-- Modelled from the spec: the run of identical lines two line sequences
share at the back, together with the two remainders. -/
def commonSuf (xs ys : List (List Char)) :
    List (List Char) × (List (List Char) × List (List Char)) :=
  let r := commonPre xs.reverse ys.reverse
  (r.1.reverse, (r.2.1.reverse, r.2.2.reverse))

/-- Modelled from the spec: the external line-level diff (the jsdiff
`diffLines` dependency, not part of this repository): a classic
("longest-common-subsequence-based or equivalent") line diff producing a
sequence of change blocks tagged unchanged/added/removed — shared leading
lines as one unchanged block, the differing middles as one removed and one
added block, shared trailing lines as one unchanged block; a block's value
concatenates its lines with their newlines kept, and empty blocks are not
emitted. -/
def diffLines (oldText newText : List Char) : List Change :=
  let xs := splitKeepNl oldText
  let ys := splitKeepNl newText
  let p := commonPre xs ys
  let s := commonSuf p.2.1 p.2.2
  (if p.1 = [] then [] else [⟨false, false, p.1.flatten⟩]) ++
    (if s.2.1 = [] then [] else [⟨false, true, s.2.1.flatten⟩]) ++
    (if s.2.2 = [] then [] else [⟨true, false, s.2.2.flatten⟩]) ++
    (if s.1 = [] then [] else [⟨false, false, s.1.flatten⟩])

/-- Function `computeLineDiff` of lib/elm-doc-server.ts (and its verbatim copy in
docs-server/api/preview.ts); the `diffLines` call is the spec-modelled
algorithm above. -/
def computeLineDiff (oldText newText : List Char) : Option (List DiffLine) :=
  computeLineDiffChanges (diffLines oldText newText)

/-- The lines a block's text contributes according to the spec: split on
newline and drop exactly the one trailing empty segment introduced by a
block-final newline. -/
def blockLines (v : List Char) : List (List Char) :=
  if v.getLast? = some '\n' then (splitOnNl v).dropLast else splitOnNl v

/-! ## Basic facts about splitting and the magnitude regex -/

theorem splitOnNl_ne_nil (cs : List Char) : splitOnNl cs ≠ [] := by
  cases cs with
  | nil => simp [splitOnNl]
  | cons c cs =>
    simp only [splitOnNl]
    split
    · simp
    · cases h : splitOnNl cs <;> simp

theorem occursIn_nil_iff (pat : List Char) : OccursIn pat [] ↔ pat = [] := by
  constructor
  · rintro ⟨pre, suf, h⟩
    rcases List.append_eq_nil.mp h.symm with ⟨h1, h2⟩
    exact (List.append_eq_nil.mp h1).2
  · rintro rfl
    exact ⟨[], [], rfl⟩

theorem occursIn_cons_iff (pat : List Char) (c : Char) (cs : List Char) :
    OccursIn pat (c :: cs) ↔ pat <+: (c :: cs) ∨ OccursIn pat cs := by
  constructor
  · rintro ⟨pre, suf, h⟩
    cases pre with
    | nil =>
      exact Or.inl ⟨suf, by simpa using h.symm⟩
    | cons p ps =>
      refine Or.inr ⟨ps, suf, ?_⟩
      rw [List.cons_append, List.cons_append] at h
      exact ((List.cons.injEq c cs p _).mp h).2
  · rintro (⟨t, ht⟩ | ⟨pre, suf, h⟩)
    · exact ⟨[], t, by simpa using ht.symm⟩
    · exact ⟨c :: pre, suf, by simp [h]⟩

namespace EDS

theorem magPattern_ne_nil (w : List Char) : magPattern w ≠ [] := by
  intro h
  have hlen := congrArg List.length h
  have h10 : ("This is a ".toList).length = 10 := by decide
  simp [magPattern, h10] at hlen

theorem major_mem_magWords : ("MAJOR".toList : List Char) ∈ magWords := by
  rw [magWords]; exact List.mem_cons_self _ _

theorem minor_mem_magWords : ("MINOR".toList : List Char) ∈ magWords := by
  rw [magWords]; exact List.mem_cons_of_mem _ (List.mem_cons_self _ _)

theorem patch_mem_magWords : ("PATCH".toList : List Char) ∈ magWords := by
  rw [magWords]
  exact List.mem_cons_of_mem _ (List.mem_cons_of_mem _ (List.mem_cons_self _ _))

theorem magAt_eq_none_iff (cs : List Char) :
    magAt cs = none ↔ ∀ w ∈ magWords, ¬ magPattern w <+: cs := by
  constructor
  · intro h w hw
    unfold magAt at h
    split at h
    next => cases h
    next h1 =>
      split at h
      next => cases h
      next h2 =>
        split at h
        next => cases h
        next h3 =>
          simp only [List.isPrefixOf_iff_prefix] at h1 h2 h3
          rw [magWords] at hw
          simp only [List.mem_cons, List.not_mem_nil, or_false] at hw
          rcases hw with rfl | rfl | rfl <;> assumption
  · intro h
    rw [magAt,
      if_neg (by simpa only [List.isPrefixOf_iff_prefix] using h _ major_mem_magWords),
      if_neg (by simpa only [List.isPrefixOf_iff_prefix] using h _ minor_mem_magWords),
      if_neg (by simpa only [List.isPrefixOf_iff_prefix] using h _ patch_mem_magWords)]

theorem magAt_eq_some (cs w : List Char) (h : magAt cs = some w) :
    w ∈ magWords ∧ magPattern w <+: cs := by
  unfold magAt at h
  split at h
  next hp =>
    cases h
    exact ⟨major_mem_magWords, List.isPrefixOf_iff_prefix.mp hp⟩
  next =>
    split at h
    next hp =>
      cases h
      exact ⟨minor_mem_magWords, List.isPrefixOf_iff_prefix.mp hp⟩
    next =>
      split at h
      next hp =>
        cases h
        exact ⟨patch_mem_magWords, List.isPrefixOf_iff_prefix.mp hp⟩
      next => cases h

theorem findMag_eq_some (cs w : List Char) (h : findMag cs = some w) :
    w ∈ magWords ∧ OccursIn (magPattern w) cs := by
  induction cs with
  | nil => simp [findMag] at h
  | cons c cs ih =>
    rw [findMag] at h
    cases hma : magAt (c :: cs) with
    | some w' =>
      rw [hma] at h
      cases h
      obtain ⟨hm, hp⟩ := magAt_eq_some _ _ hma
      exact ⟨hm, (occursIn_cons_iff _ _ _).mpr (Or.inl hp)⟩
    | none =>
      rw [hma] at h
      obtain ⟨hm, ho⟩ := ih h
      exact ⟨hm, (occursIn_cons_iff _ _ _).mpr (Or.inr ho)⟩

theorem findMag_eq_none_iff (cs : List Char) :
    findMag cs = none ↔ ∀ w ∈ magWords, ¬ OccursIn (magPattern w) cs := by
  induction cs with
  | nil =>
    simp only [findMag, true_iff]
    intro w hw ho
    exact magPattern_ne_nil w ((occursIn_nil_iff _).mp ho)
  | cons c cs ih =>
    rw [findMag]
    cases hma : magAt (c :: cs) with
    | some w' =>
      simp only [reduceCtorEq, false_iff, not_forall]
      obtain ⟨hm, hp⟩ := magAt_eq_some _ _ hma
      push_neg
      exact ⟨w', hm, (occursIn_cons_iff _ _ _).mpr (Or.inl hp)⟩
    | none =>
      rw [ih]
      constructor
      · intro hall w hw ho
        rcases (occursIn_cons_iff _ _ _).mp ho with hp | ho'
        · exact (magAt_eq_none_iff _).mp hma w hw hp
        · exact hall w hw ho'
      · intro hall w hw ho
        exact hall w hw ((occursIn_cons_iff _ _ _).mpr (Or.inr ho))

theorem parseDiffCore_cons (l0 : List Char) (rest : List (List Char))
    (cs : List Char) (h : splitOnNl cs = l0 :: rest) :
    parseDiffCore cs =
      match findMag l0 with
      | none => none
      | some w => some (parseLinesFuel rest.length ⟨w, [], [], []⟩ rest) := by
  unfold parseDiffCore
  rw [h]

theorem parseLinesFuel_magnitude (fuel : Nat) :
    ∀ (d : ApiDiff) (ls : List (List Char)),
      (parseLinesFuel fuel d ls).magnitude = d.magnitude := by
  induction fuel with
  | zero => intro d ls; rfl
  | succ n ih =>
    intro d ls
    cases ls with
    | nil => rfl
    | cons l ls =>
      rw [parseLinesFuel]
      split
      · rw [ih]
      · split
        · rw [ih]
        · cases h : captureModule l <;> simp only [h] <;> rw [ih]

end EDS

/-! ## Claim C1 -/

/-- The regression input of claim C1 (and of the repository's test files):
magnitude line, blank line, ADDED MODULES banner, blank line, two indented
module names, trailing blank line. -/
def c1Input : String :=
  "This is a MINOR change.\n\n---- ADDED MODULES - MINOR ----\n\n    FilePath\n    NewModule\n"

/-- Claim C1 (code bug): on the blank-line-padded ADDED MODULES input the
shipped parser (lib/elm-doc-server.ts and docs-server/api/preview.ts,
whose collection loop stops at the first line that is not
indented-non-blank) returns an empty addedModules, dropping both module
names; the fixed parser of the repository's own regression-test file
returns the two module names the claim requires. -/
theorem claim_C1 :
    (EDS.parseDiffOutput c1Input).map ApiDiff.addedModules = some [] ∧
    (EDS.parseDiffOutput c1Input).map ApiDiff.magnitude = some "MINOR".toList ∧
    (TestFixed.parseDiffOutput c1Input).map ApiDiff.addedModules =
      some ["FilePath".toList, "NewModule".toList] := by
  refine ⟨by decide, by decide, by decide⟩

/-! ## Claim C4 -/

/-- Claim C4: parseDiffOutput returns null exactly when the input is empty
or its first line does not contain a (case-sensitive) match of the
magnitude announcement; when it matches, the returned magnitude is the
captured word; and the two concrete inputs of the spec return null. -/
theorem claim_C4 :
    (∀ s : String, EDS.parseDiffOutput s = none ↔
      (s = "" ∨ ∀ w ∈ EDS.magWords,
        ¬ OccursIn (EDS.magPattern w) ((splitOnNl s.toList).headD []))) ∧
    (∀ s : String, ∀ d : ApiDiff, EDS.parseDiffOutput s = some d →
      ∃ w ∈ EDS.magWords,
        OccursIn (EDS.magPattern w) ((splitOnNl s.toList).headD []) ∧
        d.magnitude = w) ∧
    EDS.parseDiffOutput "" = none ∧
    EDS.parseDiffOutput "some random text" = none := by
  refine ⟨?_, ?_, by decide, by decide⟩
  · intro s
    unfold EDS.parseDiffOutput EDS.parseDiffCore
    cases hsp : splitOnNl s.toList with
    | nil => exact absurd hsp (splitOnNl_ne_nil _)
    | cons l0 rest =>
      simp only [List.headD_cons]
      cases hfm : EDS.findMag l0 with
      | none =>
        simp only [true_iff]
        exact Or.inr ((EDS.findMag_eq_none_iff l0).mp hfm)
      | some w =>
        simp only [reduceCtorEq, false_iff]
        intro hor
        rcases hor with hs | hall
        · subst hs
          have : splitOnNl "".toList = [[]] := by decide
          rw [this] at hsp
          cases hsp
          simp [EDS.findMag] at hfm
        · obtain ⟨hm, ho⟩ := EDS.findMag_eq_some l0 w hfm
          exact hall w hm ho
  · intro s d
    unfold EDS.parseDiffOutput EDS.parseDiffCore
    cases hsp : splitOnNl s.toList with
    | nil => exact absurd hsp (splitOnNl_ne_nil _)
    | cons l0 rest =>
      simp only [List.headD_cons]
      cases hfm : EDS.findMag l0 with
      | none => intro h; cases h
      | some w =>
        intro h
        cases h
        obtain ⟨hm, ho⟩ := EDS.findMag_eq_some l0 w hfm
        exact ⟨w, hm, ho, EDS.parseLinesFuel_magnitude _ _ _⟩

/-- Witness for C4: a concrete successful parse discharging the
hypothesis of the second component. -/
theorem claim_C4_witness :
    ∃ w ∈ EDS.magWords,
      OccursIn (EDS.magPattern w)
        ((splitOnNl ("This is a MAJOR change.").toList).headD []) ∧
      (ApiDiff.mk "MAJOR".toList [] [] []).magnitude = w :=
  claim_C4.2.1 "This is a MAJOR change." (ApiDiff.mk "MAJOR".toList [] [] [])
    (by decide)

/-! ## Dedup-collection lemmas for the module-body loop (claims C2, C3) -/

namespace EDS

theorem dedupFrom_nil (acc : List (List Char)) : dedupFrom acc [] = acc := rfl

theorem dedupFrom_append (acc : List (List Char)) (xs ys : List (List Char)) :
    dedupFrom acc (xs ++ ys) = dedupFrom (dedupFrom acc xs) ys :=
  List.foldl_append _ _ _ _

theorem getColl_pushIfAbsent (s s' : SubSect) (mc : ApiModuleChanges) (n : List Char) :
    getColl s (pushIfAbsent mc s' n) =
      if s = s' then dedupStep (getColl s mc) n else getColl s mc := by
  cases s <;> cases s' <;>
    simp [getColl, pushIfAbsent, dedupStep] <;> split <;> simp [getColl]

theorem collectModuleBody_getColl (s : SubSect) (body : List (List Char)) :
    ∀ (sect : Option SubSect) (mc : ApiModuleChanges),
      getColl s (collectModuleBody mc sect body).1 =
        dedupFrom (getColl s mc) (capturedIn s sect body) := by
  induction body with
  | nil => intro sect mc; rfl
  | cons l ls ih =>
    intro sect mc
    rw [collectModuleBody, capturedIn]
    split
    · rfl
    · cases hev : lineEvent sect l with
      | mk sect' ev =>
        cases ev with
        | none => simp only [ih]
        | some p =>
          obtain ⟨s', n⟩ := p
          simp only [ih, dedupFrom_append]
          congr 1
          rw [getColl_pushIfAbsent]
          by_cases hss : s' = s
          · subst hss
            rw [if_pos rfl, if_pos rfl]
            rfl
          · rw [if_neg (fun h => hss h.symm), if_neg hss]
            rfl

theorem mem_dedupFrom (acc ns : List (List Char)) (x : List Char) :
    x ∈ dedupFrom acc ns ↔ x ∈ acc ∨ x ∈ ns := by
  induction ns generalizing acc with
  | nil => simp [dedupFrom]
  | cons n ns ih =>
    show x ∈ dedupFrom (dedupStep acc n) ns ↔ _
    rw [ih]
    unfold dedupStep
    split
    next h =>
      simp only [List.mem_cons]
      constructor
      · rintro (hx | hx)
        · exact Or.inl hx
        · exact Or.inr (Or.inr hx)
      · rintro (hx | rfl | hx)
        · exact Or.inl hx
        · exact Or.inl h
        · exact Or.inr hx
    next h =>
      simp only [List.mem_append, List.mem_cons, List.mem_singleton]
      tauto

theorem dedupFrom_nodup (acc ns : List (List Char)) (h : acc.Nodup) :
    (dedupFrom acc ns).Nodup := by
  induction ns generalizing acc with
  | nil => exact h
  | cons n ns ih =>
    show (dedupFrom (dedupStep acc n) ns).Nodup
    apply ih
    unfold dedupStep
    split
    next => exact h
    next hn => simp [List.nodup_append, h, hn]

theorem dedupFirst_nodup (ns : List (List Char)) : (dedupFirst ns).Nodup :=
  dedupFrom_nodup [] ns List.nodup_nil

theorem mem_dedupFirst (ns : List (List Char)) (x : List Char) :
    x ∈ dedupFirst ns ↔ x ∈ ns := by
  rw [dedupFirst, mem_dedupFrom]; simp

/-- Every completed module record appended by the scan has duplicate-free
collections (they are first-seen dedups of the captured sequences). -/
theorem parseLinesFuel_nodup (fuel : Nat) :
    ∀ (d : ApiDiff) (ls : List (List Char)),
      (∀ mc ∈ d.changedModules,
        mc.added.Nodup ∧ mc.changed.Nodup ∧ mc.removed.Nodup) →
      ∀ mc ∈ (parseLinesFuel fuel d ls).changedModules,
        mc.added.Nodup ∧ mc.changed.Nodup ∧ mc.removed.Nodup := by
  induction fuel with
  | zero => intro d ls h; exact h
  | succ n ih =>
    intro d ls h
    cases ls with
    | nil => exact h
    | cons l ls =>
      rw [parseLinesFuel]
      split
      · exact ih _ _ h
      · split
        · exact ih _ _ h
        · cases hcm : captureModule l with
          | some nm =>
            simp only
            apply ih
            intro mc hmc
            rcases List.mem_append.mp hmc with hold | hnew
            · exact h mc hold
            · have hmc' : mc = (collectModuleBody ⟨nm, [], [], []⟩ none ls).1 := by
                simpa using hnew
              subst hmc'
              refine ⟨?_, ?_, ?_⟩
              · have := collectModuleBody_getColl SubSect.added ls none ⟨nm, [], [], []⟩
                simp only [getColl] at this
                rw [this]
                exact dedupFrom_nodup _ _ List.nodup_nil
              · have := collectModuleBody_getColl SubSect.changed ls none ⟨nm, [], [], []⟩
                simp only [getColl] at this
                rw [this]
                exact dedupFrom_nodup _ _ List.nodup_nil
              · have := collectModuleBody_getColl SubSect.removed ls none ⟨nm, [], [], []⟩
                simp only [getColl] at this
                rw [this]
                exact dedupFrom_nodup _ _ List.nodup_nil
          | none => simp only; exact ih _ _ h

end EDS

/-! ## Claim C2 -/

/-- The spec's per-module example input: a SomeModule banner with Added:,
Changed: (two lines for the same entity) and Removed: subsections. -/
def specModuleInput : String :=
  "This is a MAJOR change.\n\n---- SomeModule - MAJOR ----\n\n  Added:\n    newFunc : String -> Int\n\n  Changed:\n    - oldFunc : Int -> String\n    + oldFunc : Int -> Int -> String\n\n  Removed:\n    - removedFunc : String\n"

/-- Claim C2: each subsection collection of a completed ModuleChanges is
the first-seen-order deduplication of the sequence of identifiers captured
for that subsection (so it is duplicate-free and keeps exactly the first
occurrence of every name); consequently every module record in any parse
result has duplicate-free collections, and on the spec's example the
twice-listed changed entity yields the single entry oldFunc. -/
theorem claim_C2 :
    (∀ (body : List (List Char)) (sect : Option SubSect) (nm : List Char),
      (EDS.collectModuleBody ⟨nm, [], [], []⟩ sect body).1.added =
          EDS.dedupFirst (EDS.capturedIn SubSect.added sect body) ∧
      (EDS.collectModuleBody ⟨nm, [], [], []⟩ sect body).1.changed =
          EDS.dedupFirst (EDS.capturedIn SubSect.changed sect body) ∧
      (EDS.collectModuleBody ⟨nm, [], [], []⟩ sect body).1.removed =
          EDS.dedupFirst (EDS.capturedIn SubSect.removed sect body)) ∧
    (∀ ns : List (List Char),
      (EDS.dedupFirst ns).Nodup ∧ ∀ x, x ∈ EDS.dedupFirst ns ↔ x ∈ ns) ∧
    (∀ (s : String) (d : ApiDiff), EDS.parseDiffOutput s = some d →
      ∀ mc ∈ d.changedModules,
        mc.added.Nodup ∧ mc.changed.Nodup ∧ mc.removed.Nodup) ∧
    EDS.parseDiffOutput specModuleInput =
      some ⟨"MAJOR".toList, [], [],
        [⟨"SomeModule".toList, ["newFunc".toList], ["oldFunc".toList],
          ["removedFunc".toList]⟩]⟩ := by
  refine ⟨?_, ?_, ?_, by decide⟩
  · intro body sect nm
    refine ⟨?_, ?_, ?_⟩
    · have := EDS.collectModuleBody_getColl SubSect.added body sect ⟨nm, [], [], []⟩
      simpa [EDS.getColl, EDS.dedupFirst] using this
    · have := EDS.collectModuleBody_getColl SubSect.changed body sect ⟨nm, [], [], []⟩
      simpa [EDS.getColl, EDS.dedupFirst] using this
    · have := EDS.collectModuleBody_getColl SubSect.removed body sect ⟨nm, [], [], []⟩
      simpa [EDS.getColl, EDS.dedupFirst] using this
  · intro ns
    exact ⟨EDS.dedupFirst_nodup ns, EDS.mem_dedupFirst ns⟩
  · intro s d
    unfold EDS.parseDiffOutput
    cases hsp : splitOnNl s.toList with
    | nil => exact absurd hsp (splitOnNl_ne_nil _)
    | cons l0 rest =>
      rw [EDS.parseDiffCore_cons l0 rest s.toList hsp]
      cases hfm : EDS.findMag l0 with
      | none => intro hd; cases hd
      | some w =>
        intro hd
        cases hd
        exact EDS.parseLinesFuel_nodup _ _ _ (by simp)

/-- Witness for C2: the duplicate-free property obtained from the parser
component at the spec's concrete example. -/
theorem claim_C2_witness :
    (ApiModuleChanges.mk "SomeModule".toList ["newFunc".toList]
        ["oldFunc".toList] ["removedFunc".toList]).added.Nodup ∧
    (ApiModuleChanges.mk "SomeModule".toList ["newFunc".toList]
        ["oldFunc".toList] ["removedFunc".toList]).changed.Nodup ∧
    (ApiModuleChanges.mk "SomeModule".toList ["newFunc".toList]
        ["oldFunc".toList] ["removedFunc".toList]).removed.Nodup :=
  claim_C2.2.2.1 specModuleInput
    ⟨"MAJOR".toList, [], [],
      [⟨"SomeModule".toList, ["newFunc".toList], ["oldFunc".toList],
        ["removedFunc".toList]⟩]⟩
    (by decide) _ (by decide)

/-! ## Claim C3 -/

/-- An input whose module body lists the same entity name under two
different subsections. -/
def c3Input : String :=
  "This is a MAJOR change.\n\n---- Mod - MAJOR ----\n\n  Added:\n    foo : Int\n\n  Removed:\n    - foo : Int\n"

/-- Counterexample to C3 as stated: parseDiffOutput accepts an input whose
resulting module record contains the same entity name in both added and
removed. -/
theorem claim_C3_counterexample :
    ∃ d, EDS.parseDiffOutput c3Input = some d ∧
      ∃ mc ∈ d.changedModules,
        "foo".toList ∈ mc.added ∧ "foo".toList ∈ mc.removed := by
  refine ⟨⟨"MAJOR".toList, [], [],
    [⟨"Mod".toList, ["foo".toList], [], ["foo".toList]⟩]⟩, by decide,
    ⟨"Mod".toList, ["foo".toList], [], ["foo".toList]⟩, by decide, by decide,
    by decide⟩

/-- Claim C3 amended: the at-most-one-collection property holds for every
module body in which no entity name is captured under two distinct
subsections (as is the case for the output of the external diff tool,
which lists every entity under exactly one of Added:/Changed:/Removed:). -/
theorem claim_C3 (nm : List Char) (body : List (List Char))
    (hdisj : ∀ s s' : SubSect, s ≠ s' → ∀ x,
      x ∈ EDS.capturedIn s none body → x ∉ EDS.capturedIn s' none body) :
    ∀ x : List Char,
      ¬(x ∈ (EDS.collectModuleBody ⟨nm, [], [], []⟩ none body).1.added ∧
        x ∈ (EDS.collectModuleBody ⟨nm, [], [], []⟩ none body).1.changed) ∧
      ¬(x ∈ (EDS.collectModuleBody ⟨nm, [], [], []⟩ none body).1.added ∧
        x ∈ (EDS.collectModuleBody ⟨nm, [], [], []⟩ none body).1.removed) ∧
      ¬(x ∈ (EDS.collectModuleBody ⟨nm, [], [], []⟩ none body).1.changed ∧
        x ∈ (EDS.collectModuleBody ⟨nm, [], [], []⟩ none body).1.removed) := by
  intro x
  have hmem : ∀ s : SubSect,
      x ∈ EDS.getColl s (EDS.collectModuleBody ⟨nm, [], [], []⟩ none body).1 →
      x ∈ EDS.capturedIn s none body := by
    intro s hx
    rw [EDS.collectModuleBody_getColl, EDS.mem_dedupFrom] at hx
    rcases hx with hx | hx
    · cases s <;> simp [EDS.getColl] at hx
    · exact hx
  refine ⟨?_, ?_, ?_⟩
  · rintro ⟨h1, h2⟩
    exact hdisj SubSect.added SubSect.changed (by simp) x
      (hmem SubSect.added h1) (hmem SubSect.changed h2)
  · rintro ⟨h1, h2⟩
    exact hdisj SubSect.added SubSect.removed (by simp) x
      (hmem SubSect.added h1) (hmem SubSect.removed h2)
  · rintro ⟨h1, h2⟩
    exact hdisj SubSect.changed SubSect.removed (by simp) x
      (hmem SubSect.changed h1) (hmem SubSect.removed h2)

/-- The body lines of the spec's SomeModule example, as seen by the
module-body loop. -/
def specModuleBody : List (List Char) :=
  [[], "  Added:".toList, "    newFunc : String -> Int".toList, [],
    "  Changed:".toList, "    - oldFunc : Int -> String".toList,
    "    + oldFunc : Int -> Int -> String".toList, [],
    "  Removed:".toList, "    - removedFunc : String".toList, []]

/-- Witness for the amended C3 at the spec's example body, whose captured
sequences are pairwise disjoint. -/
theorem claim_C3_witness :
    ¬("newFunc".toList ∈
        (EDS.collectModuleBody ⟨"SomeModule".toList, [], [], []⟩ none
          specModuleBody).1.added ∧
      "newFunc".toList ∈
        (EDS.collectModuleBody ⟨"SomeModule".toList, [], [], []⟩ none
          specModuleBody).1.changed) := by
  have e1 : EDS.capturedIn SubSect.added none specModuleBody =
      ["newFunc".toList] := by decide
  have e2 : EDS.capturedIn SubSect.changed none specModuleBody =
      ["oldFunc".toList, "oldFunc".toList] := by decide
  have e3 : EDS.capturedIn SubSect.removed none specModuleBody =
      ["removedFunc".toList] := by decide
  have h := claim_C3 "SomeModule".toList specModuleBody ?_ "newFunc".toList
  · exact h.1
  · intro s s' hne x hx hx'
    cases s <;> cases s' <;>
      simp only [e1, e2, e3, List.mem_cons, List.not_mem_nil, or_false,
        or_self] at hx hx' <;>
      first
        | exact hne rfl
        | (subst hx; revert hx'; decide)

/-! ## Claims C5 and C6 -/

theorem commonPre_self (l : List (List Char)) : commonPre l l = (l, ([], [])) := by
  induction l with
  | nil => rfl
  | cons x xs ih => simp [commonPre, ih]

theorem splitOnNl_append_nl (u : List Char) :
    splitOnNl (u ++ ['\n']) = splitOnNl u ++ [[]] := by
  induction u with
  | nil => rfl
  | cons c cs ih =>
    rw [List.cons_append]
    by_cases hc : c = '\n'
    · subst hc
      simp [splitOnNl, ih]
    · cases h : splitOnNl cs with
      | nil => exact absurd h (splitOnNl_ne_nil cs)
      | cons l ls =>
        simp [splitOnNl, if_neg hc, ih, h]

theorem splitOnNl_stripFinalNl (v : List Char) :
    splitOnNl (stripFinalNl v) = blockLines v := by
  unfold stripFinalNl blockLines
  split
  next h =>
    have hne : v ≠ [] := by
      intro hv
      subst hv
      simp at h
    obtain ⟨u, rfl⟩ : ∃ u, v = u ++ ['\n'] := by
      refine ⟨v.dropLast, ?_⟩
      have hlast : v.getLast hne = '\n' := by
        have hg := List.getLast?_eq_getLast v hne
        rw [hg] at h
        exact Option.some.inj h
      rw [← hlast]
      exact (List.dropLast_append_getLast hne).symm
    rw [List.dropLast_concat, splitOnNl_append_nl, List.dropLast_concat]
  next h => rfl

/-- Claim C5: computeLineDiff is absent exactly when the underlying
algorithm reports no added and no removed block; a present result is never
the empty sequence; and on equal texts the result is always absent. -/
theorem claim_C5 :
    (∀ changes : List Change,
      computeLineDiffChanges changes = none ↔
        ∀ c ∈ changes, c.added = false ∧ c.removed = false) ∧
    (∀ o n : List Char,
      computeLineDiff o n = none ↔
        ∀ c ∈ diffLines o n, c.added = false ∧ c.removed = false) ∧
    (∀ (changes : List Change) (out : List DiffLine),
      computeLineDiffChanges changes = some out → out ≠ []) ∧
    (∀ a : List Char, computeLineDiff a a = none) := by
  have h1 : ∀ changes : List Change,
      computeLineDiffChanges changes = none ↔
        ∀ c ∈ changes, c.added = false ∧ c.removed = false := by
    intro changes
    unfold computeLineDiffChanges
    split
    next h =>
      constructor
      · intro _ c hc
        have := List.all_eq_true.mp h c hc
        constructor
        · have := (Bool.and_eq_true _ _ ▸ this).1
          simpa [Bool.not_eq_true'] using this
        · have := (Bool.and_eq_true _ _ ▸ this).2
          simpa [Bool.not_eq_true'] using this
      · intro _
        rfl
    next h =>
      constructor
      · intro hcontra
        exact absurd hcontra (Option.some_ne_none _)
      · intro hall
        exfalso
        apply h
        apply List.all_eq_true.mpr
        intro c hc
        have hc' := hall c hc
        simp [Bool.and_eq_true, Bool.not_eq_true', hc'.1, hc'.2]
  refine ⟨h1, ?_, ?_, ?_⟩
  · intro o n
    unfold computeLineDiff
    exact h1 _
  · intro changes out hout
    unfold computeLineDiffChanges at hout
    split at hout
    next => exact Option.noConfusion hout
    next h =>
      cases hout
      cases changes with
      | nil =>
        exfalso
        exact h rfl
      | cons c cs =>
        rw [List.flatMap_cons]
        intro hemp
        have hl := (List.append_eq_nil.mp hemp).1
        exact splitOnNl_ne_nil _ (List.map_eq_nil_iff.mp hl)
  · intro a
    unfold computeLineDiff
    rw [h1]
    intro c hc
    simp only [diffLines] at hc
    rw [commonPre_self] at hc
    simp only [commonSuf, commonPre, List.reverse_nil, List.append_nil,
      List.nil_append, if_pos rfl] at hc
    split at hc
    next =>
      simp only [if_true, List.nil_append, List.append_nil,
        List.not_mem_nil] at hc
    next =>
      simp only [if_true, List.nil_append, List.append_nil,
        List.mem_singleton] at hc
      subst hc
      exact ⟨rfl, rfl⟩

/-- Witness for C5: the nonemptiness component applied at a concrete
changed block, and the equal-texts component at a concrete text. -/
theorem claim_C5_witness :
    ([((1 : Int), "x".toList)] : List DiffLine) ≠ [] ∧
      computeLineDiff "a".toList "a".toList = none :=
  ⟨claim_C5.2.2.1 [⟨true, false, "x\n".toList⟩] [((1 : Int), "x".toList)]
      (by decide),
    claim_C5.2.2.2 "a".toList⟩

/-- Claim C6: a present result is exactly the in-order concatenation of
one DiffLine per line of each block, tagged with the block's status, where
a block's lines are its text split on newline with exactly the one
trailing empty segment introduced by a block-final newline dropped; in
particular a block-final newline never contributes an extra empty line. -/
theorem claim_C6 :
    (∀ (changes : List Change) (out : List DiffLine),
      computeLineDiffChanges changes = some out →
      out = changes.flatMap fun c =>
        (blockLines c.value).map fun l => (changeStatus c, l)) ∧
    (∀ v : List Char, v.getLast? ≠ some '\n' →
      blockLines (v ++ ['\n']) = blockLines v) ∧
    (∀ v : List Char, v.getLast? = some '\n' →
      blockLines v = (splitOnNl v).dropLast) ∧
    (∀ v : List Char, v.getLast? ≠ some '\n' → blockLines v = splitOnNl v) := by
  refine ⟨?_, ?_, ?_, ?_⟩
  · intro changes out hout
    unfold computeLineDiffChanges at hout
    split at hout
    next => exact Option.noConfusion hout
    next =>
      cases hout
      simp only [splitOnNl_stripFinalNl]
  · intro v hv
    unfold blockLines
    rw [if_pos (List.getLast?_concat v), if_neg hv, splitOnNl_append_nl,
      List.dropLast_concat]
  · intro v hv
    unfold blockLines
    rw [if_pos hv]
  · intro v hv
    unfold blockLines
    rw [if_neg hv]

/-- Witness for C6: the expansion applied at a concrete two-line added
block, and newline-appending at a concrete newline-free text. -/
theorem claim_C6_witness :
    ([((1 : Int), "x".toList), ((1 : Int), "y".toList)] : List DiffLine) =
      [Change.mk true false "x\ny\n".toList].flatMap
        (fun c => (blockLines c.value).map fun l => (changeStatus c, l)) ∧
    blockLines ("ab".toList ++ ['\n']) = blockLines "ab".toList :=
  ⟨claim_C6.1 [Change.mk true false "x\ny\n".toList]
      [((1 : Int), "x".toList), ((1 : Int), "y".toList)] (by decide),
    claim_C6.2.1 "ab".toList (by decide)⟩

/-! ## Content-diff engine (`computeContentDiff` of lib/elm-doc-server.ts,
verbatim in docs-server/api/preview.ts) -/

/-- A documented value of the compiler's docs.json wire format. -/
structure DocsValue where
  name : List Char
  comment : List Char
  type : List Char
deriving DecidableEq

/-- A documented infix operator; associativity and precedence are carried
by the wire format but unused by the diff engine. -/
structure DocsBinop where
  name : List Char
  comment : List Char
  type : List Char
  associativity : List Char
  precedence : Int
deriving DecidableEq

/-- A documented type alias. -/
structure DocsAlias where
  name : List Char
  comment : List Char
  args : List (List Char)
  type : List Char
deriving DecidableEq

/-- A documented union type; each case is a constructor name with its
rendered argument-type strings. -/
structure DocsUnion where
  name : List Char
  comment : List Char
  args : List (List Char)
  cases : List (List Char × List (List Char))
deriving DecidableEq

/-- A `DocsModule` of the wire format. -/
structure DocsModule where
  name : List Char
  comment : List Char
  unions : List DocsUnion
  aliases : List DocsAlias
  values : List DocsValue
  binops : List DocsBinop
deriving DecidableEq

/-- Structure `ItemContentDiff` (the source's optional commentDiff and optional
previous-signature string, the latter called oldAnnotation there). -/
structure ItemContentDiff where
  commentDiff : Option (List DiffLine)
  oldAnn : Option (List Char)
deriving DecidableEq

/-- Structure `ModuleContentDiff`: the per-module item record, in insertion order. -/
structure ModuleContentDiff where
  items : List (List Char × ItemContentDiff)
deriving DecidableEq

/-- Structure `ContentDiff`. -/
structure ContentDiff where
  modules : List (List Char × ModuleContentDiff)
  readmeDiff : Option (List DiffLine)
deriving DecidableEq

/-- JavaScript `alias.args.join(" ")`-style space join. -/
def joinSpace : List (List Char) → List Char
  | [] => []
  | [x] => x
  | x :: xs => x ++ [' '] ++ joinSpace xs

/-- JavaScript `.join(" | ")` over rendered union cases. -/
def joinBar : List (List Char) → List Char
  | [] => []
  | [x] => x
  | x :: xs => x ++ " | ".toList ++ joinBar xs

/-- The source's value/binop rendering (its formatAnnotation):
`"<name> : <type>"`. -/
def formatAnnot (name type : List Char) : List Char :=
  name ++ " : ".toList ++ type

/-- The source's alias rendering (its formatAliasAnnotation). -/
def formatAliasAnnot (a : DocsAlias) : List Char :=
  "type alias ".toList ++ a.name ++
    (if a.args.length > 0 then [' '] ++ joinSpace a.args else []) ++
    " = ".toList ++ a.type

/-- The source's union rendering (its formatUnionAnnotation). -/
def formatUnionAnnot (u : DocsUnion) : List Char :=
  "type ".toList ++ u.name ++
    (if u.args.length > 0 then [' '] ++ joinSpace u.args else []) ++
    " = ".toList ++
    joinBar (u.cases.map fun c =>
      if c.2.length = 0 then c.1 else c.1 ++ [' '] ++ joinSpace c.2)

/-- The comparison body shared by the four per-kind loops: commentDiff is
recorded when the comments differ and the line diff is non-absent; the
previous-signature string is recorded when the kind-specific signature
test differs (test and rendering supplied by the caller). -/
def mkItem (pubComment curComment : List Char) (sigDiffers : Bool)
    (render : List Char) : ItemContentDiff :=
  { commentDiff :=
      if pubComment ≠ curComment then computeLineDiff pubComment curComment
      else none,
    oldAnn := if sigDiffers then some render else none }

/-- Flag `itemHasDiff` of the source loops: some field was recorded. -/
def itemHasDiff (it : ItemContentDiff) : Bool :=
  it.commentDiff.isSome || it.oldAnn.isSome

/-- One value comparison (signature test: the type strings differ). -/
def valueItem (pv cv : DocsValue) : ItemContentDiff :=
  mkItem pv.comment cv.comment (decide (pv.type ≠ cv.type))
    (formatAnnot pv.name pv.type)

/-- One binop comparison (signature test: the type strings differ). -/
def binopItem (pb cb : DocsBinop) : ItemContentDiff :=
  mkItem pb.comment cb.comment (decide (pb.type ≠ cb.type))
    (formatAnnot pb.name pb.type)

/-- One alias comparison (signature test: the type strings differ or the
args sequences differ; the source compares args via JSON.stringify, which
on string arrays coincides with structural equality). -/
def aliasItem (pa ca : DocsAlias) : ItemContentDiff :=
  mkItem pa.comment ca.comment (decide (pa.type ≠ ca.type ∨ pa.args ≠ ca.args))
    (formatAliasAnnot pa)

/-- One union comparison (signature test: the cases sequences differ or
the args sequences differ; JSON.stringify comparison on these
string/array shapes coincides with structural equality). -/
def unionItem (pu cu : DocsUnion) : ItemContentDiff :=
  mkItem pu.comment cu.comment (decide (pu.cases ≠ cu.cases ∨ pu.args ≠ cu.args))
    (formatUnionAnnot pu)

/-- The values loop: for each current value with a same-named published
counterpart (first match, `Array.prototype.find`), keep the comparison
when it recorded anything. -/
def valuesContrib (pubMod curMod : DocsModule) :
    List (List Char × ItemContentDiff) :=
  curMod.values.filterMap fun cv =>
    match pubMod.values.find? (fun v => decide (v.name = cv.name)) with
    | none => none
    | some pv =>
      let it := valueItem pv cv
      if itemHasDiff it then some (cv.name, it) else none

/-- The binops loop. -/
def binopsContrib (pubMod curMod : DocsModule) :
    List (List Char × ItemContentDiff) :=
  curMod.binops.filterMap fun cb =>
    match pubMod.binops.find? (fun b => decide (b.name = cb.name)) with
    | none => none
    | some pb =>
      let it := binopItem pb cb
      if itemHasDiff it then some (cb.name, it) else none

/-- The aliases loop. -/
def aliasesContrib (pubMod curMod : DocsModule) :
    List (List Char × ItemContentDiff) :=
  curMod.aliases.filterMap fun ca =>
    match pubMod.aliases.find? (fun a => decide (a.name = ca.name)) with
    | none => none
    | some pa =>
      let it := aliasItem pa ca
      if itemHasDiff it then some (ca.name, it) else none

/-- The unions loop. -/
def unionsContrib (pubMod curMod : DocsModule) :
    List (List Char × ItemContentDiff) :=
  curMod.unions.filterMap fun cu =>
    match pubMod.unions.find? (fun u => decide (u.name = cu.name)) with
    | none => none
    | some pu =>
      let it := unionItem pu cu
      if itemHasDiff it then some (cu.name, it) else none

/-- JavaScript `record[key] = value`: replace in place when the key exists
(object keys keep their first-insertion position), else append. -/
def upsert {α : Type} (l : List (List Char × α)) (k : List Char) (v : α) :
    List (List Char × α) :=
  if l.any (fun p => decide (p.1 = k)) then
    l.map fun p => if p.1 = k then (k, v) else p
  else l ++ [(k, v)]

/-- The item record accumulated for one module by the four loops, in
source order values, binops, aliases, unions. -/
def moduleItems (pubMod curMod : DocsModule) :
    List (List Char × ItemContentDiff) :=
  (valuesContrib pubMod curMod ++ binopsContrib pubMod curMod ++
      aliasesContrib pubMod curMod ++ unionsContrib pubMod curMod).foldl
    (fun acc p => upsert acc p.1 p.2) []

/-- The `publishedByName` Map: built by insertion, `get` returns the value
of the last `set` for the key (so the last module of that name). -/
def mapGet (mods : List DocsModule) (n : List Char) : Option DocsModule :=
  mods.reverse.find? fun m => decide (m.name = n)

/-- One iteration of the module loop of computeContentDiff: skip a current
module absent from the published lookup, otherwise record its item map
when non-empty. -/
def contentStep (pubMods : List DocsModule)
    (acc : List (List Char × ModuleContentDiff)) (cm : DocsModule) :
    List (List Char × ModuleContentDiff) :=
  match mapGet pubMods cm.name with
  | none => acc
  | some pm =>
    if moduleItems pm cm ≠ [] then upsert acc cm.name ⟨moduleItems pm cm⟩
    else acc

/-- The module loop of computeContentDiff: every current module whose name
is in the published lookup contributes its item record when non-empty. -/
def contentModules (pubMods curMods : List DocsModule) :
    List (List Char × ModuleContentDiff) :=
  curMods.foldl (contentStep pubMods) []

/-- The README comparison of computeContentDiff. -/
def readmeOpt (publishedReadme currentReadme : Option (List Char)) :
    Option (List DiffLine) :=
  match publishedReadme, currentReadme with
  | some pr, some cr => if pr ≠ cr then computeLineDiff pr cr else none
  | _, _ => none

/-- Function `computeContentDiff` of lib/elm-doc-server.ts (verbatim in
docs-server/api/preview.ts). -/
def computeContentDiff (publishedDocs currentDocs : Option (List DocsModule))
    (publishedReadme currentReadme : Option (List Char)) :
    Option ContentDiff :=
  match publishedDocs, currentDocs with
  | some pd, some cd =>
    let mods := contentModules pd cd
    let rd := readmeOpt publishedReadme currentReadme
    if mods ≠ [] ∨ rd.isSome then some ⟨mods, rd⟩ else none
  | _, _ => none

/-- Entity names unique per kind per module and module names unique in the
snapshot (the data-model invariant the compiler guarantees for every
documentation snapshot). -/
def SnapshotWF (ds : List DocsModule) : Prop :=
  (ds.map DocsModule.name).Nodup ∧
  ∀ m ∈ ds, (m.values.map DocsValue.name).Nodup ∧
    (m.binops.map DocsBinop.name).Nodup ∧
    (m.aliases.map DocsAlias.name).Nodup ∧
    (m.unions.map DocsUnion.name).Nodup

instance (ds : List DocsModule) : Decidable (SnapshotWF ds) := by
  unfold SnapshotWF
  infer_instance

/-! ## Claim C7 -/

theorem computeContentDiff_some_some (pd cd : List DocsModule)
    (pr cr : Option (List Char)) :
    computeContentDiff (some pd) (some cd) pr cr =
      if contentModules pd cd ≠ [] ∨ (readmeOpt pr cr).isSome then
        some ⟨contentModules pd cd, readmeOpt pr cr⟩
      else none := rfl

/-- With per-kind unique names, `find?` by an element's own name returns
that element. -/
theorem find?_name_self {α : Type} (nm : α → List Char) (l : List α) (x : α)
    (hn : (l.map nm).Nodup) (hx : x ∈ l) :
    l.find? (fun y => decide (nm y = nm x)) = some x := by
  induction l with
  | nil => cases hx
  | cons h t ih =>
    rw [List.map_cons, List.nodup_cons] at hn
    rcases List.mem_cons.mp hx with rfl | hx'
    · rw [List.find?_cons_of_pos]
      simp
    · have hnm : nm h ≠ nm x := by
        intro he
        exact hn.1 (he ▸ List.mem_map.mpr ⟨x, hx', rfl⟩)
      rw [List.find?_cons_of_neg _ (by simp [hnm])]
      exact ih hn.2 hx'

theorem mapGet_self (ds : List DocsModule) (m : DocsModule)
    (hn : (ds.map DocsModule.name).Nodup) (hm : m ∈ ds) :
    mapGet ds m.name = some m := by
  unfold mapGet
  exact find?_name_self DocsModule.name ds.reverse m
    (by rw [List.map_reverse]; exact List.nodup_reverse.mpr hn)
    (List.mem_reverse.mpr hm)

theorem valuesContrib_self (m : DocsModule)
    (hn : (m.values.map DocsValue.name).Nodup) :
    valuesContrib m m = [] := by
  unfold valuesContrib
  rw [List.filterMap_eq_nil_iff]
  intro cv hcv
  rw [find?_name_self DocsValue.name m.values cv hn hcv]
  simp [valueItem, mkItem, itemHasDiff]

theorem binopsContrib_self (m : DocsModule)
    (hn : (m.binops.map DocsBinop.name).Nodup) :
    binopsContrib m m = [] := by
  unfold binopsContrib
  rw [List.filterMap_eq_nil_iff]
  intro cb hcb
  rw [find?_name_self DocsBinop.name m.binops cb hn hcb]
  simp [binopItem, mkItem, itemHasDiff]

theorem aliasesContrib_self (m : DocsModule)
    (hn : (m.aliases.map DocsAlias.name).Nodup) :
    aliasesContrib m m = [] := by
  unfold aliasesContrib
  rw [List.filterMap_eq_nil_iff]
  intro ca hca
  rw [find?_name_self DocsAlias.name m.aliases ca hn hca]
  simp [aliasItem, mkItem, itemHasDiff]

theorem unionsContrib_self (m : DocsModule)
    (hn : (m.unions.map DocsUnion.name).Nodup) :
    unionsContrib m m = [] := by
  unfold unionsContrib
  rw [List.filterMap_eq_nil_iff]
  intro cu hcu
  rw [find?_name_self DocsUnion.name m.unions cu hn hcu]
  simp [unionItem, mkItem, itemHasDiff]

theorem foldl_id_of {α β : Type} (f : β → α → β) (l : List α)
    (h : ∀ (b : β), ∀ a ∈ l, f b a = b) : ∀ b, l.foldl f b = b := by
  induction l with
  | nil => intro b; rfl
  | cons a t ih =>
    intro b
    rw [List.foldl_cons, h b a (List.mem_cons_self a t)]
    exact ih (fun b' a' ha' => h b' a' (List.mem_cons_of_mem _ ha')) b

theorem contentModules_self (ds : List DocsModule) (h : SnapshotWF ds) :
    contentModules ds ds = [] := by
  unfold contentModules
  refine foldl_id_of _ ds ?_ []
  intro acc cm hcm
  unfold contentStep
  rw [mapGet_self ds cm h.1 hcm]
  obtain ⟨hv, hb, ha, hu⟩ := h.2 cm hcm
  have hmi : moduleItems cm cm = [] := by
    unfold moduleItems
    rw [valuesContrib_self cm hv, binopsContrib_self cm hb,
      aliasesContrib_self cm ha, unionsContrib_self cm hu]
    rfl
  simp [hmi]

theorem readmeOpt_self (r : Option (List Char)) : readmeOpt r r = none := by
  cases r <;> simp [readmeOpt]

/-- Claim C7: computeContentDiff is null when either snapshot is absent
(regardless of the READMEs); on present snapshots it is null exactly when
the module loop accumulated nothing and the README comparison found
nothing; a present result is never contentless; and on identical
well-formed snapshots with identical READMEs it is null. -/
theorem claim_C7 :
    (∀ cd pr cr, computeContentDiff none cd pr cr = none) ∧
    (∀ pd pr cr, computeContentDiff pd none pr cr = none) ∧
    (∀ pd cd pr cr, computeContentDiff (some pd) (some cd) pr cr = none ↔
      (contentModules pd cd = [] ∧ readmeOpt pr cr = none)) ∧
    (∀ pd cd pr cr d, computeContentDiff (some pd) (some cd) pr cr = some d →
      d.modules ≠ [] ∨ d.readmeDiff ≠ none) ∧
    (∀ (ds : List DocsModule) (r : Option (List Char)), SnapshotWF ds →
      computeContentDiff (some ds) (some ds) r r = none) := by
  refine ⟨?_, ?_, ?_, ?_, ?_⟩
  · intro cd pr cr
    cases cd <;> rfl
  · intro pd pr cr
    cases pd <;> rfl
  · intro pd cd pr cr
    rw [computeContentDiff_some_some]
    split
    next hcond =>
      constructor
      · intro h
        exact Option.noConfusion h
      · rintro ⟨h1, h2⟩
        rcases hcond with hne | hs
        · exact absurd h1 hne
        · rw [h2] at hs
          cases hs
    next hcond =>
      have h1 : contentModules pd cd = [] := not_not.mp (not_or.mp hcond).1
      have h2 : readmeOpt pr cr = none :=
        Option.not_isSome_iff_eq_none.mp (not_or.mp hcond).2
      exact ⟨fun _ => ⟨h1, h2⟩, fun _ => rfl⟩
  · intro pd cd pr cr d
    rw [computeContentDiff_some_some]
    split
    next hcond =>
      intro hd
      cases hd
      rcases hcond with hne | hs
      · exact Or.inl hne
      · refine Or.inr ?_
        intro hnone
        have h' : readmeOpt pr cr = none := hnone
        rw [h'] at hs
        cases hs
    next =>
      intro hd
      exact Option.noConfusion hd
  · intro ds r h
    rw [computeContentDiff_some_some, contentModules_self ds h, readmeOpt_self r]
    simp

/-- A small well-formed demonstration module. -/
def demoModule : DocsModule :=
  ⟨"M".toList, [], [], [], [⟨"foo".toList, "c".toList, "Int".toList⟩], []⟩

/-- Witness for C7: the identical-snapshot component applied at a concrete
well-formed snapshot and README. -/
theorem claim_C7_witness :
    computeContentDiff (some [demoModule]) (some [demoModule])
      (some "r".toList) (some "r".toList) = none :=
  claim_C7.2.2.2.2 [demoModule] (some "r".toList) (by decide)

/-! ## Claim C8 -/

theorem mem_upsert {α : Type} (l : List (List Char × α)) (k : List Char)
    (v : α) (p : List Char × α) (hp : p ∈ upsert l k v) :
    p ∈ l ∨ p = (k, v) := by
  unfold upsert at hp
  split at hp
  · rcases List.mem_map.mp hp with ⟨q, hq, hqe⟩
    by_cases hcond : q.1 = k
    · rw [if_pos hcond] at hqe
      exact Or.inr hqe.symm
    · rw [if_neg hcond] at hqe
      exact Or.inl (hqe ▸ hq)
  · rcases List.mem_append.mp hp with h | h
    · exact Or.inl h
    · exact Or.inr (List.mem_singleton.mp h)

theorem mem_foldl_upsert {α : Type} (contribs : List (List Char × α)) :
    ∀ (acc : List (List Char × α)) (p : List Char × α),
      p ∈ contribs.foldl (fun a q => upsert a q.1 q.2) acc →
      p ∈ acc ∨ p ∈ contribs := by
  induction contribs with
  | nil =>
    intro acc p hp
    exact Or.inl hp
  | cons q qs ih =>
    intro acc p hp
    rw [List.foldl_cons] at hp
    rcases ih _ p hp with h | h
    · rcases mem_upsert _ _ _ _ h with h' | h'
      · exact Or.inl h'
      · right
        rw [h']
        exact List.mem_cons_self _ _
    · exact Or.inr (List.mem_cons_of_mem _ h)

theorem mem_valuesContrib (pm cm : DocsModule) (p : List Char × ItemContentDiff)
    (hp : p ∈ valuesContrib pm cm) :
    p.1 ∈ cm.values.map DocsValue.name ∧ p.1 ∈ pm.values.map DocsValue.name := by
  unfold valuesContrib at hp
  rcases List.mem_filterMap.mp hp with ⟨cv, hcv, hf⟩
  split at hf
  next => exact Option.noConfusion hf
  next pv hfind =>
    dsimp only [] at hf
    split at hf
    next =>
      cases hf
      have hname := List.find?_some hfind
      simp only [decide_eq_true_eq] at hname
      exact ⟨List.mem_map.mpr ⟨cv, hcv, rfl⟩,
        List.mem_map.mpr ⟨pv, List.mem_of_find?_eq_some hfind, hname⟩⟩
    next => exact Option.noConfusion hf

theorem mem_binopsContrib (pm cm : DocsModule) (p : List Char × ItemContentDiff)
    (hp : p ∈ binopsContrib pm cm) :
    p.1 ∈ cm.binops.map DocsBinop.name ∧ p.1 ∈ pm.binops.map DocsBinop.name := by
  unfold binopsContrib at hp
  rcases List.mem_filterMap.mp hp with ⟨cb, hcb, hf⟩
  split at hf
  next => exact Option.noConfusion hf
  next pb hfind =>
    dsimp only [] at hf
    split at hf
    next =>
      cases hf
      have hname := List.find?_some hfind
      simp only [decide_eq_true_eq] at hname
      exact ⟨List.mem_map.mpr ⟨cb, hcb, rfl⟩,
        List.mem_map.mpr ⟨pb, List.mem_of_find?_eq_some hfind, hname⟩⟩
    next => exact Option.noConfusion hf

theorem mem_aliasesContrib (pm cm : DocsModule) (p : List Char × ItemContentDiff)
    (hp : p ∈ aliasesContrib pm cm) :
    p.1 ∈ cm.aliases.map DocsAlias.name ∧ p.1 ∈ pm.aliases.map DocsAlias.name := by
  unfold aliasesContrib at hp
  rcases List.mem_filterMap.mp hp with ⟨ca, hca, hf⟩
  split at hf
  next => exact Option.noConfusion hf
  next pa hfind =>
    dsimp only [] at hf
    split at hf
    next =>
      cases hf
      have hname := List.find?_some hfind
      simp only [decide_eq_true_eq] at hname
      exact ⟨List.mem_map.mpr ⟨ca, hca, rfl⟩,
        List.mem_map.mpr ⟨pa, List.mem_of_find?_eq_some hfind, hname⟩⟩
    next => exact Option.noConfusion hf

theorem mem_unionsContrib (pm cm : DocsModule) (p : List Char × ItemContentDiff)
    (hp : p ∈ unionsContrib pm cm) :
    p.1 ∈ cm.unions.map DocsUnion.name ∧ p.1 ∈ pm.unions.map DocsUnion.name := by
  unfold unionsContrib at hp
  rcases List.mem_filterMap.mp hp with ⟨cu, hcu, hf⟩
  split at hf
  next => exact Option.noConfusion hf
  next pu hfind =>
    dsimp only [] at hf
    split at hf
    next =>
      cases hf
      have hname := List.find?_some hfind
      simp only [decide_eq_true_eq] at hname
      exact ⟨List.mem_map.mpr ⟨cu, hcu, rfl⟩,
        List.mem_map.mpr ⟨pu, List.mem_of_find?_eq_some hfind, hname⟩⟩
    next => exact Option.noConfusion hf

/-- Predicate: `n` names an entity of one same kind present in both the current and
the published version of a module. -/
def entityNameInBothKinds (n : List Char) (cm pm : DocsModule) : Prop :=
  (n ∈ cm.values.map DocsValue.name ∧ n ∈ pm.values.map DocsValue.name) ∨
  (n ∈ cm.binops.map DocsBinop.name ∧ n ∈ pm.binops.map DocsBinop.name) ∨
  (n ∈ cm.aliases.map DocsAlias.name ∧ n ∈ pm.aliases.map DocsAlias.name) ∨
  (n ∈ cm.unions.map DocsUnion.name ∧ n ∈ pm.unions.map DocsUnion.name)

theorem mem_moduleItems (pm cm : DocsModule) (p : List Char × ItemContentDiff)
    (hp : p ∈ moduleItems pm cm) : entityNameInBothKinds p.1 cm pm := by
  unfold moduleItems at hp
  rcases mem_foldl_upsert _ _ _ hp with h | h
  · exact absurd h (List.not_mem_nil p)
  · rcases List.mem_append.mp h with h1 | hu
    · rcases List.mem_append.mp h1 with h2 | ha
      · rcases List.mem_append.mp h2 with hv | hb
        · exact Or.inl (mem_valuesContrib pm cm p hv)
        · exact Or.inr (Or.inl (mem_binopsContrib pm cm p hb))
      · exact Or.inr (Or.inr (Or.inl (mem_aliasesContrib pm cm p ha)))
    · exact Or.inr (Or.inr (Or.inr (mem_unionsContrib pm cm p hu)))

theorem mapGet_eq_some (pd : List DocsModule) (n : List Char)
    (pm : DocsModule) (h : mapGet pd n = some pm) : pm ∈ pd ∧ pm.name = n := by
  unfold mapGet at h
  have hname := List.find?_some h
  simp only [decide_eq_true_eq] at hname
  exact ⟨List.mem_reverse.mp (List.mem_of_find?_eq_some h), hname⟩

theorem mem_contentStep (pd : List DocsModule)
    (acc : List (List Char × ModuleContentDiff)) (cm : DocsModule)
    (q : List Char × ModuleContentDiff) (hq : q ∈ contentStep pd acc cm) :
    q ∈ acc ∨ ∃ pm, mapGet pd cm.name = some pm ∧
      q = (cm.name, ⟨moduleItems pm cm⟩) := by
  unfold contentStep at hq
  split at hq
  next => exact Or.inl hq
  next pm hpm =>
    split at hq
    next =>
      rcases mem_upsert _ _ _ _ hq with h | h
      · exact Or.inl h
      · exact Or.inr ⟨pm, hpm, h⟩
    next => exact Or.inl hq

theorem mem_contentModules (pd cd : List DocsModule)
    (q : List Char × ModuleContentDiff) (hq : q ∈ contentModules pd cd) :
    ∃ cm ∈ cd, ∃ pm, mapGet pd cm.name = some pm ∧
      q = (cm.name, ⟨moduleItems pm cm⟩) := by
  unfold contentModules at hq
  have key : ∀ (l : List DocsModule)
      (acc : List (List Char × ModuleContentDiff)),
      q ∈ l.foldl (contentStep pd) acc →
      q ∈ acc ∨ ∃ cm ∈ l, ∃ pm, mapGet pd cm.name = some pm ∧
        q = (cm.name, ⟨moduleItems pm cm⟩) := by
    intro l
    induction l with
    | nil =>
      intro acc hq'
      exact Or.inl hq'
    | cons cm l ih =>
      intro acc hq'
      rw [List.foldl_cons] at hq'
      rcases ih _ hq' with h | h
      · rcases mem_contentStep pd acc cm q h with h' | h'
        · exact Or.inl h'
        · obtain ⟨pm, hpm, hqe⟩ := h'
          exact Or.inr ⟨cm, List.mem_cons_self _ _, pm, hpm, hqe⟩
      · obtain ⟨cm', hcm', rest⟩ := h
        exact Or.inr ⟨cm', List.mem_cons_of_mem _ hcm', rest⟩
  rcases key cd [] hq with h | h
  · exact absurd h (List.not_mem_nil q)
  · exact h

/-- Claim C8: computeContentDiff only inspects the intersection — every
module name in the result names a module present in both snapshots, and
every entity name in a module's item map names an entity of that kind
present in both the current and the published version of that module. -/
theorem claim_C8 :
    ∀ (pd cd : List DocsModule) (pr cr : Option (List Char)) (d : ContentDiff),
      computeContentDiff (some pd) (some cd) pr cr = some d →
      ∀ p ∈ d.modules,
        (∃ cm ∈ cd, cm.name = p.1) ∧ (∃ pm ∈ pd, pm.name = p.1) ∧
        ∀ q ∈ p.2.items,
          ∃ cm ∈ cd, ∃ pm ∈ pd, cm.name = p.1 ∧ pm.name = p.1 ∧
            entityNameInBothKinds q.1 cm pm := by
  intro pd cd pr cr d hd p hp
  rw [computeContentDiff_some_some] at hd
  split at hd
  next =>
    cases hd
    have hp' : p ∈ contentModules pd cd := hp
    obtain ⟨cm, hcm, pm, hpm, hqe⟩ := mem_contentModules pd cd p hp'
    obtain ⟨hpmmem, hpmname⟩ := mapGet_eq_some pd cm.name pm hpm
    subst hqe
    refine ⟨⟨cm, hcm, rfl⟩, ⟨pm, hpmmem, hpmname⟩, ?_⟩
    intro q hq
    have hq' : q ∈ moduleItems pm cm := hq
    exact ⟨cm, hcm, pm, hpmmem, rfl, hpmname,
      mem_moduleItems pm cm q hq'⟩
  next => exact Option.noConfusion hd

/-- A published module that shares the value foo with `demoModule` but at
a different type. -/
def demoModulePub : DocsModule :=
  ⟨"M".toList, [], [], [], [⟨"foo".toList, "c".toList, "String".toList⟩], []⟩

/-- Witness for C8: the intersection property obtained at a concrete
one-module diff. -/
theorem claim_C8_witness :
    (∃ cm ∈ [demoModule], cm.name = "M".toList) ∧
    (∃ pm ∈ [demoModulePub], pm.name = "M".toList) ∧
    ∀ q ∈ (ModuleContentDiff.mk
        [("foo".toList,
          ⟨none, some "foo : String".toList⟩)]).items,
      ∃ cm ∈ [demoModule], ∃ pm ∈ [demoModulePub],
        cm.name = "M".toList ∧ pm.name = "M".toList ∧
        entityNameInBothKinds q.1 cm pm := by
  have happ := claim_C8 [demoModulePub] [demoModule] none none
    ⟨[("M".toList,
      ⟨[("foo".toList, ⟨none, some "foo : String".toList⟩)]⟩)], none⟩
    (by decide)
    ("M".toList, ⟨[("foo".toList, ⟨none, some "foo : String".toList⟩)]⟩)
    (by decide)
  exact happ

/-! ## Claim C9 -/

/-- The spec's rendering of a previous value/binop declaration. -/
def specRenderValue (name type : List Char) : List Char :=
  name ++ " : ".toList ++ type

/-- The spec's rendering of a previous alias declaration: the args segment
(with its leading space) is omitted exactly when args is empty. -/
def specRenderAlias (a : DocsAlias) : List Char :=
  "type alias ".toList ++ a.name ++
    (if a.args = [] then [] else [' '] ++ joinSpace a.args) ++
    " = ".toList ++ a.type

/-- The spec's rendering of a previous union declaration: each case is its
constructor name followed by its space-joined argument types, cases joined
by " | ". -/
def specRenderUnion (u : DocsUnion) : List Char :=
  "type ".toList ++ u.name ++
    (if u.args = [] then [] else [' '] ++ joinSpace u.args) ++
    " = ".toList ++
    joinBar (u.cases.map fun c =>
      c.1 ++ (if c.2 = [] then [] else [' '] ++ joinSpace c.2))

theorem formatAliasAnnot_eq (a : DocsAlias) :
    formatAliasAnnot a = specRenderAlias a := by
  unfold formatAliasAnnot specRenderAlias
  cases h : a.args with
  | nil => simp [h]
  | cons x xs => simp [h]

theorem formatUnionAnnot_eq (u : DocsUnion) :
    formatUnionAnnot u = specRenderUnion u := by
  unfold formatUnionAnnot specRenderUnion
  have hmap : ∀ c ∈ u.cases,
      (if c.2.length = 0 then c.1 else c.1 ++ [' '] ++ joinSpace c.2) =
        c.1 ++ (if c.2 = [] then [] else [' '] ++ joinSpace c.2) := by
    intro c _
    cases h : c.2 with
    | nil => simp [h]
    | cons y ys => simp [h, List.append_assoc]
  rw [List.map_congr_left hmap]
  cases h : u.args with
  | nil => simp [h]
  | cons x xs => simp [h]

theorem valueItem_oldAnn (pv cv : DocsValue) :
    (valueItem pv cv).oldAnn =
      if pv.type ≠ cv.type then some (formatAnnot pv.name pv.type)
      else none := by
  unfold valueItem mkItem
  by_cases h : pv.type = cv.type <;> simp [h]

theorem binopItem_oldAnn (pb cb : DocsBinop) :
    (binopItem pb cb).oldAnn =
      if pb.type ≠ cb.type then some (formatAnnot pb.name pb.type)
      else none := by
  unfold binopItem mkItem
  by_cases h : pb.type = cb.type <;> simp [h]

theorem aliasItem_oldAnn (pa ca : DocsAlias) :
    (aliasItem pa ca).oldAnn =
      if pa.type ≠ ca.type ∨ pa.args ≠ ca.args then some (formatAliasAnnot pa)
      else none := by
  unfold aliasItem mkItem
  by_cases h : pa.type ≠ ca.type ∨ pa.args ≠ ca.args <;> simp [h]

theorem unionItem_oldAnn (pu cu : DocsUnion) :
    (unionItem pu cu).oldAnn =
      if pu.cases ≠ cu.cases ∨ pu.args ≠ cu.args then
        some (formatUnionAnnot pu)
      else none := by
  unfold unionItem mkItem
  by_cases h : pu.cases ≠ cu.cases ∨ pu.args ≠ cu.args <;> simp [h]

/-- Claim C9: for every compared entity, the previous-signature string is
present exactly when the kind-specific signature equality fails
(independently of the comments), and when present it is the canonical
rendering of the published entity described by the spec. -/
theorem claim_C9 :
    (∀ pv cv : DocsValue,
      ((valueItem pv cv).oldAnn ≠ none ↔ pv.type ≠ cv.type) ∧
      ∀ s, (valueItem pv cv).oldAnn = some s →
        s = specRenderValue pv.name pv.type) ∧
    (∀ pb cb : DocsBinop,
      ((binopItem pb cb).oldAnn ≠ none ↔ pb.type ≠ cb.type) ∧
      ∀ s, (binopItem pb cb).oldAnn = some s →
        s = specRenderValue pb.name pb.type) ∧
    (∀ pa ca : DocsAlias,
      ((aliasItem pa ca).oldAnn ≠ none ↔
        (pa.type ≠ ca.type ∨ pa.args ≠ ca.args)) ∧
      ∀ s, (aliasItem pa ca).oldAnn = some s → s = specRenderAlias pa) ∧
    (∀ pu cu : DocsUnion,
      ((unionItem pu cu).oldAnn ≠ none ↔
        (pu.cases ≠ cu.cases ∨ pu.args ≠ cu.args)) ∧
      ∀ s, (unionItem pu cu).oldAnn = some s → s = specRenderUnion pu) ∧
    (∀ (pv cv : DocsValue) (c1 c2 : List Char),
      (valueItem { pv with comment := c1 } { cv with comment := c2 }).oldAnn =
        (valueItem pv cv).oldAnn) ∧
    (∀ (pb cb : DocsBinop) (c1 c2 : List Char),
      (binopItem { pb with comment := c1 } { cb with comment := c2 }).oldAnn =
        (binopItem pb cb).oldAnn) ∧
    (∀ (pa ca : DocsAlias) (c1 c2 : List Char),
      (aliasItem { pa with comment := c1 } { ca with comment := c2 }).oldAnn =
        (aliasItem pa ca).oldAnn) ∧
    (∀ (pu cu : DocsUnion) (c1 c2 : List Char),
      (unionItem { pu with comment := c1 } { cu with comment := c2 }).oldAnn =
        (unionItem pu cu).oldAnn) := by
  refine ⟨?_, ?_, ?_, ?_, fun _ _ _ _ => rfl, fun _ _ _ _ => rfl,
    fun _ _ _ _ => rfl, fun _ _ _ _ => rfl⟩
  · intro pv cv
    rw [valueItem_oldAnn]
    constructor
    · by_cases h : pv.type = cv.type <;> simp [h]
    · intro s hs
      split at hs
      next =>
        cases hs
        rfl
      next => exact Option.noConfusion hs
  · intro pb cb
    rw [binopItem_oldAnn]
    constructor
    · by_cases h : pb.type = cb.type <;> simp [h]
    · intro s hs
      split at hs
      next =>
        cases hs
        rfl
      next => exact Option.noConfusion hs
  · intro pa ca
    rw [aliasItem_oldAnn]
    constructor
    · by_cases h : pa.type ≠ ca.type ∨ pa.args ≠ ca.args <;> simp [h]
    · intro s hs
      split at hs
      next =>
        cases hs
        exact formatAliasAnnot_eq pa
      next => exact Option.noConfusion hs
  · intro pu cu
    rw [unionItem_oldAnn]
    constructor
    · by_cases h : pu.cases ≠ cu.cases ∨ pu.args ≠ cu.args <;> simp [h]
    · intro s hs
      split at hs
      next =>
        cases hs
        exact formatUnionAnnot_eq pu
      next => exact Option.noConfusion hs

/-- Witness for C9: the rendering obtained from the value component at a
concrete changed value. -/
theorem claim_C9_witness :
    ("foo : Int".toList : List Char) =
      specRenderValue "foo".toList "Int".toList :=
  (claim_C9.1 ⟨"foo".toList, [], "Int".toList⟩
    ⟨"foo".toList, [], "String".toList⟩).2 "foo : Int".toList (by decide)

/-! ## The API-diff parser of docs-server/api/preview.ts

The serverless deployment's preview.ts contains its own copy of
`parseDiffOutput` (ported, line for line, from lib/elm-doc-server.ts); it
is embedded here a second time, so that the equivalence claim compares two
definitions and not one definition with itself. -/

namespace Preview

def magWords : List (List Char) :=
  ["MAJOR".toList, "MINOR".toList, "PATCH".toList]

def magPattern (w : List Char) : List Char :=
  "This is a ".toList ++ w ++ " change".toList

def magAt (cs : List Char) : Option (List Char) :=
  if (magPattern "MAJOR".toList).isPrefixOf cs then some "MAJOR".toList
  else if (magPattern "MINOR".toList).isPrefixOf cs then some "MINOR".toList
  else if (magPattern "PATCH".toList).isPrefixOf cs then some "PATCH".toList
  else none

def findMag : List Char → Option (List Char)
  | [] => none
  | c :: cs =>
    match magAt (c :: cs) with
    | some w => some w
    | none => findMag cs

def leadDashes (cs : List Char) : Nat :=
  (cs.takeWhile (· = '-')).length

def isAddedBanner (cs : List Char) : Bool :=
  decide (1 ≤ leadDashes cs) &&
    " ADDED MODULES".toList.isPrefixOf (cs.drop (leadDashes cs))

def isRemovedBanner (cs : List Char) : Bool :=
  decide (1 ≤ leadDashes cs) &&
    " REMOVED MODULES".toList.isPrefixOf (cs.drop (leadDashes cs))

def isBanner4 (cs : List Char) : Bool :=
  decide (4 ≤ leadDashes cs)

def matchIndented (cs : List Char) : Bool :=
  match cs with
  | [] => false
  | c :: _ => isJsSpace c && decide (cs.dropWhile isJsSpace ≠ [])

def stripMarker : List Char → List Char
  | [] => []
  | c :: cs => if c = '+' || c = '-' then cs.dropWhile isJsSpace else c :: cs

def isIdentStart (c : Char) : Bool :=
  ('a' ≤ c && c ≤ 'z') || ('A' ≤ c && c ≤ 'Z')

def isIdentChar (c : Char) : Bool :=
  isIdentStart c || ('0' ≤ c && c ≤ '9') || c = '_'

def itemName (cs : List Char) : Option (List Char) :=
  match cs with
  | [] => none
  | c :: rest =>
    if isIdentStart c then
      let after := rest.dropWhile isIdentChar
      let spaces := after.takeWhile isJsSpace
      if spaces ≠ [] && (after.dropWhile isJsSpace).head? = some ':' then
        some (c :: rest.takeWhile isIdentChar)
      else none
    else none

def stripPre : List Char → List Char → Option (List Char)
  | [], cs => some cs
  | _ :: _, [] => none
  | p :: ps, c :: cs => if p = c then stripPre ps cs else none

def suffixShape (cs : List Char) : Bool :=
  magWords.any fun w =>
    match stripPre (" - ".toList ++ w ++ [' ']) cs with
    | some r => decide (4 ≤ r.length) && r.all (· = '-')
    | none => false

def isDotChar (c : Char) : Bool :=
  !(c = '\n' || c = '\r' || c = '\u2028' || c = '\u2029')

def captureScan (acc : List Char) : List Char → Option (List Char)
  | [] => none
  | c :: rest =>
    if isDotChar c then
      if suffixShape rest then some ((c :: acc).reverse)
      else captureScan (c :: acc) rest
    else none

def captureModule (cs : List Char) : Option (List Char) :=
  if 4 ≤ leadDashes cs then
    match cs.drop (leadDashes cs) with
    | c :: rest => if c = ' ' then captureScan [] rest else none
    | [] => none
  else none

def lineEvent (sect : Option SubSect) (l : List Char) :
    Option SubSect × Option (SubSect × List Char) :=
  let t := jsTrim l
  if t = "Added:".toList then (some SubSect.added, none)
  else if t = "Changed:".toList then (some SubSect.changed, none)
  else if t = "Removed:".toList then (some SubSect.removed, none)
  else
    match sect with
    | some s =>
      if t ≠ [] then
        match itemName (stripMarker t) with
        | some n => (sect, some (s, n))
        | none => (sect, none)
      else (sect, none)
    | none => (sect, none)

def pushIfAbsent (mc : ApiModuleChanges) : SubSect → List Char → ApiModuleChanges
  | SubSect.added, n =>
    if n ∈ mc.added then mc else { mc with added := mc.added ++ [n] }
  | SubSect.changed, n =>
    if n ∈ mc.changed then mc else { mc with changed := mc.changed ++ [n] }
  | SubSect.removed, n =>
    if n ∈ mc.removed then mc else { mc with removed := mc.removed ++ [n] }

def collectModuleBody (mc : ApiModuleChanges) (sect : Option SubSect) :
    List (List Char) → ApiModuleChanges × List (List Char)
  | [] => (mc, [])
  | l :: ls =>
    if isBanner4 l then (mc, l :: ls)
    else
      match lineEvent sect l with
      | (sect', some (s, n)) => collectModuleBody (pushIfAbsent mc s n) sect' ls
      | (sect', none) => collectModuleBody mc sect' ls

def collectIndentedBuggy : List (List Char) → List (List Char) × List (List Char)
  | [] => ([], [])
  | l :: ls =>
    if matchIndented l then
      let p := collectIndentedBuggy ls
      (jsTrim l :: p.1, p.2)
    else ([], l :: ls)

def parseLinesFuel : Nat → ApiDiff → List (List Char) → ApiDiff
  | 0, d, _ => d
  | _ + 1, d, [] => d
  | fuel + 1, d, l :: ls =>
    if isAddedBanner l then
      let p := collectIndentedBuggy ls
      parseLinesFuel fuel { d with addedModules := d.addedModules ++ p.1 } p.2
    else if isRemovedBanner l then
      let p := collectIndentedBuggy ls
      parseLinesFuel fuel { d with removedModules := d.removedModules ++ p.1 } p.2
    else
      match captureModule l with
      | some nm =>
        let p := collectModuleBody ⟨nm, [], [], []⟩ none ls
        parseLinesFuel fuel { d with changedModules := d.changedModules ++ [p.1] } p.2
      | none => parseLinesFuel fuel d ls

def parseDiffCore (cs : List Char) : Option ApiDiff :=
  match splitOnNl cs with
  | [] => none
  | l0 :: rest =>
    match findMag l0 with
    | none => none
    | some w => some (parseLinesFuel rest.length ⟨w, [], [], []⟩ rest)

/-- Function `parseDiffOutput` of docs-server/api/preview.ts. -/
def parseDiffOutput (s : String) : Option ApiDiff :=
  parseDiffCore s.toList

end Preview

/-! ## Claim C10 -/

theorem pe_stripPre : Preview.stripPre = EDS.stripPre := by
  funext p cs
  induction p generalizing cs with
  | nil => rfl
  | cons x xs ih =>
    cases cs with
    | nil => rfl
    | cons c cs' =>
      simp only [Preview.stripPre, EDS.stripPre]
      by_cases h : x = c
      · simp [h, ih]
      · simp [h]

theorem pe_suffixShape : Preview.suffixShape = EDS.suffixShape := by
  funext cs
  unfold Preview.suffixShape EDS.suffixShape
  rw [pe_stripPre]
  rfl

theorem pe_findMag : Preview.findMag = EDS.findMag := by
  funext cs
  induction cs with
  | nil => rfl
  | cons c cs ih =>
    simp only [Preview.findMag, EDS.findMag]
    rw [show Preview.magAt = EDS.magAt from rfl]
    cases hm : EDS.magAt (c :: cs) with
    | some w => rfl
    | none => exact ih

theorem pe_captureScan : Preview.captureScan = EDS.captureScan := by
  funext acc cs
  induction cs generalizing acc with
  | nil => rfl
  | cons c rest ih =>
    simp only [Preview.captureScan, EDS.captureScan]
    rw [pe_suffixShape, show Preview.isDotChar = EDS.isDotChar from rfl]
    simp only [ih]

theorem pe_captureModule : Preview.captureModule = EDS.captureModule := by
  funext cs
  unfold Preview.captureModule EDS.captureModule
  rw [show Preview.leadDashes = EDS.leadDashes from rfl, pe_captureScan]

theorem pe_collectModuleBody :
    Preview.collectModuleBody = EDS.collectModuleBody := by
  funext mc sect body
  induction body generalizing mc sect with
  | nil => rfl
  | cons l ls ih =>
    simp only [Preview.collectModuleBody, EDS.collectModuleBody]
    rw [show Preview.isBanner4 = EDS.isBanner4 from rfl,
      show Preview.lineEvent = EDS.lineEvent from rfl,
      show Preview.pushIfAbsent = EDS.pushIfAbsent from rfl]
    split
    · rfl
    · cases hev : EDS.lineEvent sect l with
      | mk sect' ev =>
        cases ev with
        | none => exact ih _ _
        | some p => simp only [ih]

theorem pe_collectIndentedBuggy :
    Preview.collectIndentedBuggy = EDS.collectIndentedBuggy := by
  funext body
  induction body with
  | nil => rfl
  | cons l ls ih =>
    simp only [Preview.collectIndentedBuggy, EDS.collectIndentedBuggy]
    rw [show Preview.matchIndented = EDS.matchIndented from rfl]
    simp only [ih]

theorem pe_parseLinesFuel : Preview.parseLinesFuel = EDS.parseLinesFuel := by
  funext fuel d ls
  induction fuel generalizing d ls with
  | zero => rfl
  | succ n ih =>
    cases ls with
    | nil => rfl
    | cons l ls =>
      simp only [Preview.parseLinesFuel, EDS.parseLinesFuel]
      rw [show Preview.isAddedBanner = EDS.isAddedBanner from rfl,
        show Preview.isRemovedBanner = EDS.isRemovedBanner from rfl,
        pe_collectIndentedBuggy, pe_captureModule, pe_collectModuleBody]
      split
      · simp only [ih]
      · split
        · simp only [ih]
        · cases hcm : EDS.captureModule l with
          | some nm => simp only [ih]
          | none => simp only [ih]

theorem pe_parseDiffCore : Preview.parseDiffCore = EDS.parseDiffCore := by
  funext cs
  unfold Preview.parseDiffCore EDS.parseDiffCore
  rw [pe_findMag, pe_parseLinesFuel]


/-- Claim C10: the API-diff parser of the server deployment and the one of
the serverless deployment are extensionally equal — on every input they
return the same result. -/
theorem claim_C10 :
    ∀ s : String, EDS.parseDiffOutput s = Preview.parseDiffOutput s := by
  intro s
  unfold EDS.parseDiffOutput Preview.parseDiffOutput
  rw [pe_parseDiffCore]
